import Mathlib

/-!
Verification development for the U-FISH spot-calling pipeline.

The repository source under scrutiny is the command-line wrapper
(ufish/cli.py).  The spot-calling algorithms themselves live in the api
module, which is not part of the provided sources; following the design
document, those operations are modelled here directly from the
specification text (each such definition carries a doc comment starting
with "Modelled from the spec:").  The CLI state machine (weights-loading
flag, dispatch of load_weights) is embedded from ufish/cli.py itself.

Images are two-dimensional arrays of rational intensities; coordinates
are pairs (row, column) of natural numbers.
-/

/-- A pixel coordinate: (row, column). -/
abbrev Coord : Type := Nat × Nat

/-- A 2D image: dimensions plus an intensity function.  Only the values at
in-bounds coordinates (row < rows, col < cols) are meaningful. -/
structure Image where
  rows : Nat
  cols : Nat
  val : Nat → Nat → ℚ

/-- Build an image from a rectangular list of rows of intensities. -/
def Image.ofRows (l : List (List ℚ)) : Image :=
  { rows := l.length
    cols := (l.headD []).length
    val := fun r c => (l.getD r []).getD c 0 }

/-- All in-bounds coordinates of an image in row-major (raster) order. -/
def rasterCoords (img : Image) : List Coord :=
  (List.range img.rows).flatMap (fun r => (List.range img.cols).map (fun c => (r, c)))

/-- Adjacency of two pixels under a connectivity parameter: Chebyshev
distance at most 1 and the pixels distinct; connectivity 1 additionally
restricts to axis-aligned neighbours (city-block distance 1), while
connectivity 2 (or more) includes diagonal neighbours. -/
def nbr (conn : Nat) (p q : Coord) : Bool :=
  decide (p ≠ q) && decide (Nat.dist p.1 q.1 ≤ 1) && decide (Nat.dist p.2 q.2 ≤ 1) &&
    (decide (2 ≤ conn) || decide (Nat.dist p.1 q.1 + Nat.dist p.2 q.2 ≤ 1))

/-- One spot of the result table: sub-pixel coordinates per axis plus an
intensity value. -/
structure Spot where
  c0 : ℚ
  c1 : ℚ
  intensity : ℚ
deriving DecidableEq, Repr

section Components

variable {α : Type}

/-- Breadth-style flood fill collecting one connected region.  The stack
holds pixels committed to the region whose neighbours are still to be
explored; the pool holds unassigned pixels.  Returns the collected region
together with the leftover pool.  Fuel bounds the recursion; any fuel at
least stack.length + pool.length is sufficient for a complete fill (when
fuel runs out the remaining stack is still committed to the region, so
the result is a partition of stack ++ pool for every fuel). -/
def flood (adj : α → α → Bool) : Nat → List α → List α → List α × List α
  | _, [], pool => ([], pool)
  | 0, stack, pool => (stack, pool)
  | fuel + 1, p :: stack, pool =>
      ((flood adj fuel (stack ++ pool.filter (fun q => adj p q))
          (pool.filter (fun q => !adj p q))).1.cons p,
       (flood adj fuel (stack ++ pool.filter (fun q => adj p q))
          (pool.filter (fun q => !adj p q))).2)

/-- Repeated flood fill: split a list of pixels into connected regions,
ordered by the first pixel of each region.  Fuel at least pts.length is
sufficient. -/
def componentsAux (adj : α → α → Bool) : Nat → List α → List (List α)
  | _, [] => []
  | 0, pool => [pool]
  | fuel + 1, p :: pool =>
      (flood adj (pool.length + 1) [p] pool).1 ::
        componentsAux adj fuel (flood adj (pool.length + 1) [p] pool).2

/-- Connected regions of a pixel list under an adjacency relation,
discovered by raster-order flood fill. -/
def components (adj : α → α → Bool) (pts : List α) : List (List α) :=
  componentsAux adj pts.length pts

/-- Reachability between two pixels through a chain of adjacent pixels
all belonging to the ambient list. -/
def ReachIn (adj : α → α → Bool) (amb : List α) : α → α → Prop :=
  Relation.ReflTransGen (fun x y => x ∈ amb ∧ y ∈ amb ∧ adj x y = true)

/-- The mathematical notion of a connected component of the pixel list
pts under adj: a nonempty set of pixels of pts, mutually reachable
through pts, and closed under adjacency within pts (maximality). -/
def IsComp (adj : α → α → Bool) (pts : List α) (S : Finset α) : Prop :=
  S.Nonempty ∧ (∀ p ∈ S, p ∈ pts) ∧ (∀ p ∈ S, ∀ q ∈ S, ReachIn adj pts p q) ∧
    (∀ p ∈ S, ∀ q ∈ pts, adj p q = true → q ∈ S)

end Components

/-! ## Thresholder (modelled from the spec, section 4.1) -/

/-- The threshold argument of the connected-component caller: either the
automatic Otsu method or an explicit numeric cutoff. -/
inductive BinaryThreshold where
  | otsu : BinaryThreshold
  | value : ℚ → BinaryThreshold

/-- All pixel values of an image in raster order. -/
def pixelValues (img : Image) : List ℚ :=
  (rasterCoords img).map (fun p => img.val p.1 p.2)

/-- Modelled from the spec: between-class variance of the split of the
pixel values at a candidate threshold (class 0 holds the values at most
the candidate, class 1 the values strictly above); a degenerate split
with an empty class scores zero. -/
def betweenClassVariance (vals : List ℚ) (t : ℚ) : ℚ :=
  let lo := vals.filter (fun v => decide (v ≤ t))
  let hi := vals.filter (fun v => decide (t < v))
  if lo.length = 0 ∨ hi.length = 0 then 0
  else
    let n : ℚ := vals.length
    let w0 : ℚ := (lo.length : ℚ) / n
    let w1 : ℚ := (hi.length : ℚ) / n
    let mu0 : ℚ := lo.sum / (lo.length : ℚ)
    let mu1 : ℚ := hi.sum / (hi.length : ℚ)
    w0 * w1 * (mu0 - mu1) * (mu0 - mu1)

/-- Modelled from the spec: Otsu automatic thresholding (the api module
implementing it is not among the provided sources) — choose, among the
distinct pixel values, the candidate maximizing the between-class
variance of the induced split of the histogram; the first maximizer in
raster order is kept, and a degenerate single-valued image yields that
value itself (so the strict comparison marks every pixel background). -/
def otsuThreshold (img : Image) : ℚ :=
  let vals := pixelValues img
  let cands := vals.dedup
  cands.foldl
    (fun best t =>
      if betweenClassVariance vals best < betweenClassVariance vals t then t else best)
    (cands.headD 0)

/-- The numeric cutoff determined by a threshold argument. -/
def thresholdValue (img : Image) : BinaryThreshold → ℚ
  | BinaryThreshold.otsu => otsuThreshold img
  | BinaryThreshold.value t => t

/-- Modelled from the spec: binarization marks pixels strictly greater
than the cutoff as foreground; this is the raster-order list of
foreground coordinates of the binary mask. -/
def maskCoords (img : Image) (bt : BinaryThreshold) : List Coord :=
  (rasterCoords img).filter (fun p => decide (thresholdValue img bt < img.val p.1 p.2))

/-! ## ConnectedComponentCaller (modelled from the spec, section 4.2) -/

/-- Connected components of the binary mask under 8-connectivity, in
raster-scan labelling order. -/
def ccomps (img : Image) (bt : BinaryThreshold) : List (List Coord) :=
  components (nbr 2) (maskCoords img bt)

/-- Sum of the original (pre-threshold) intensities over a pixel list. -/
def sumIntensity (img : Image) (c : List Coord) : ℚ :=
  (c.map (fun p => img.val p.1 p.2)).sum

/-- Modelled from the spec: the Spot of one surviving component — each
coordinate is the intensity-weighted centroid over the pixels of the
component, using the original (pre-threshold) intensities as weights, and
the reported intensity is the intensity-weighted average intensity (the
variant the spec recommends). -/
def ccSpot (img : Image) (c : List Coord) : Spot :=
  { c0 := (c.map (fun p => (p.1 : ℚ) * img.val p.1 p.2)).sum / sumIntensity img c
    c1 := (c.map (fun p => (p.2 : ℚ) * img.val p.1 p.2)).sum / sumIntensity img c
    intensity := (c.map (fun p => img.val p.1 p.2 * img.val p.1 p.2)).sum / sumIntensity img c }

/-- Modelled from the spec: the connected-component caller — binarize,
label 8-connected components, discard components with fewer than
cc_size_thresh pixels, and emit one intensity-weighted centroid Spot per
surviving component in label order. -/
def call_spots_cc_center (img : Image) (bt : BinaryThreshold) (cc_size_thresh : Nat) :
    List Spot :=
  ((ccomps img bt).filter (fun c => decide (cc_size_thresh ≤ c.length))).map (ccSpot img)

/-! ## LocalMaximaCaller (modelled from the spec, section 4.3) -/

/-- The in-bounds neighbours of a pixel under a connectivity parameter
(boundary pixels simply have fewer neighbours; no wraparound). -/
def nbrsIn (img : Image) (conn : Nat) (p : Coord) : List Coord :=
  (rasterCoords img).filter (fun q => nbr conn p q)

/-- Modelled from the spec: a pixel is a local maximum when its intensity
is greater than or equal to that of every in-bounds neighbour and
strictly exceeds the intensity threshold. -/
def isLocalMax (img : Image) (conn : Nat) (thr : ℚ) (p : Coord) : Bool :=
  (nbrsIn img conn p).all (fun q => decide (img.val q.1 q.2 ≤ img.val p.1 p.2)) &&
    decide (thr < img.val p.1 p.2)

/-- The raster-order list of local-maximum pixels. -/
def maximaCoords (img : Image) (conn : Nat) (thr : ℚ) : List Coord :=
  (rasterCoords img).filter (isLocalMax img conn thr)

/-- Plateau adjacency: neighbouring pixels of equal intensity. -/
def plateauAdj (img : Image) (conn : Nat) (p q : Coord) : Bool :=
  nbr conn p q && decide (img.val p.1 p.2 = img.val q.1 q.2)

/-- Modelled from the spec: the plateaus — connected groups of adjacent,
equal-intensity local-maximum pixels — in raster order of the first
(topmost-leftmost) pixel of each plateau. -/
def plateaus (img : Image) (conn : Nat) (thr : ℚ) : List (List Coord) :=
  components (plateauAdj img conn) (maximaCoords img conn thr)

/-- Modelled from the spec: the Spot of one plateau — positioned at the unweighted
mean of the pixel coordinates of the plateau, with its (equal)
intensity value. -/
def plateauSpot (img : Image) (pl : List Coord) : Spot :=
  { c0 := (pl.map (fun p => (p.1 : ℚ))).sum / (pl.length : ℚ)
    c1 := (pl.map (fun p => (p.2 : ℚ))).sum / (pl.length : ℚ)
    intensity := img.val (pl.headD (0, 0)).1 (pl.headD (0, 0)).2 }

/-- Modelled from the spec: the local-maxima caller — find the local
maxima, group them into equal-intensity plateaus, and emit one Spot per
plateau at its centroid. -/
def call_spots_local_maxima (img : Image) (conn : Nat) (thr : ℚ) : List Spot :=
  (plateaus img conn thr).map (plateauSpot img)

/-! ## Concrete test images -/

/-- The scenario image of the spec: a 3 by 3 flat patch of value 10
surrounded by value 5. -/
def patchImage : Image := Image.ofRows
  [[5, 5, 5, 5, 5],
   [5, 10, 10, 10, 5],
   [5, 10, 10, 10, 5],
   [5, 10, 10, 10, 5],
   [5, 5, 5, 5, 5]]

/-- A 1 by 2 image with one negative intensity. -/
def mixedSignImage : Image := Image.ofRows [[2, -1]]

/-- A 2 by 2 all-zero image. -/
def zeroImage : Image := Image.ofRows [[0, 0], [0, 0]]

/-! ## ResultTable CSV serialization (modelled from the spec, sections 4.4 and 6) -/

/-- The character for one decimal digit. -/
def digitChar (d : Nat) : Char := Char.ofNat (48 + d)

/-- The numeric value of a decimal digit character. -/
def charVal (c : Char) : Nat := c.toNat - 48

/-- Whether a character is a decimal digit. -/
def isDigitCh (c : Char) : Bool := decide (48 ≤ c.toNat) && decide (c.toNat ≤ 57)

/-- Decimal rendering of a natural number, most significant digit
first. -/
def natChars (n : Nat) : List Char :=
  if n = 0 then ['0'] else ((Nat.digits 10 n).reverse).map digitChar

/-- Parse a decimal natural number; rejects empty or non-digit input. -/
def parseNatChars (l : List Char) : Option Nat :=
  if l = [] then none
  else if l.all isDigitCh then some (Nat.ofDigits 10 ((l.map charVal).reverse))
  else none

/-- Decimal rendering of an integer, with a leading minus sign when
negative. -/
def intChars (n : Int) : List Char :=
  if n < 0 then '-' :: natChars n.natAbs else natChars n.toNat

/-- Parse an optionally minus-signed decimal integer. -/
def parseIntChars (l : List Char) : Option Int :=
  match l with
  | [] => none
  | c :: rest =>
      if c = '-' then (parseNatChars rest).map (fun m => -(m : Int))
      else (parseNatChars l).map (fun m => (m : Int))

/-- Exact textual rendering of a rational: numerator, slash,
denominator. -/
def ratChars (q : ℚ) : List Char := intChars q.num ++ '/' :: natChars q.den

/-- Parse a rational rendered as numerator, slash, denominator. -/
def parseRatChars (l : List Char) : Option ℚ :=
  match l.dropWhile (fun c => decide (c ≠ '/')) with
  | [] => none
  | _ :: dpart =>
      match parseIntChars (l.takeWhile (fun c => decide (c ≠ '/'))),
          parseNatChars dpart with
      | some n, some d => if d = 0 then none else some ((n : ℚ) / (d : ℚ))
      | _, _ => none

/-- Modelled from the spec: CSV export of a ResultTable (the api module
performing the export is not among the provided sources) — a header row
with the fixed column names axis-0, axis-1, intensity followed by one
row of rendered values per Spot, with no index column. -/
def serializeResultTable (spots : List Spot) : List (List String) :=
  ["axis-0", "axis-1", "intensity"] ::
    spots.map (fun s => [String.mk (ratChars s.c0), String.mk (ratChars s.c1),
      String.mk (ratChars s.intensity)])

/-- Parse one CSV data row back into a Spot. -/
def parseSpotRow (row : List String) : Option Spot :=
  match row with
  | [a, b, c] =>
      (parseRatChars a.data).bind (fun x =>
        (parseRatChars b.data).bind (fun y =>
          (parseRatChars c.data).map (fun i => { c0 := x, c1 := y, intensity := i })))
  | _ => none

/-- Parse a list of CSV data rows back into Spots. -/
def parseSpotRows : List (List String) → Option (List Spot)
  | [] => some []
  | r :: rs => (parseSpotRow r).bind (fun s => (parseSpotRows rs).map (fun ss => s :: ss))

/-- Modelled from the spec: CSV import — check the fixed header row and
parse each data row. -/
def parseResultTable (rows : List (List String)) : Option (List Spot) :=
  match rows with
  | [] => none
  | header :: body =>
      if header = ["axis-0", "axis-1", "intensity"] then parseSpotRows body else none

/-! ## CLI state machine (embedded from ufish/cli.py) -/

/-- The mutable state of a UFishCLI instance touched by the
weights-loading logic: the _weights_loaded flag, plus a counter of how
many times load_weights has run (instrumentation for the at-most-once
property). -/
structure CLIState where
  weightsLoaded : Bool
  loadCount : Nat
deriving DecidableEq, Repr

/-- The state of a freshly constructed UFishCLI: line 22 of cli.py sets
_weights_loaded to False. -/
def initCLIState : CLIState := { weightsLoaded := false, loadCount := 0 }

/-- State effect of load_weights (cli.py lines 34-60): delegate the
actual loading, then set _weights_loaded to True. -/
def loadWeightsStep (st : CLIState) : CLIState :=
  { weightsLoaded := true, loadCount := st.loadCount + 1 }

/-- The gating prelude shared by enhance_img, pred_2d_img and
pred_2d_imgs: if not self._weights_loaded then self.load_weights(). -/
def ensureWeights (st : CLIState) : CLIState :=
  if st.weightsLoaded then st else loadWeightsStep st

/-- State effect of enhance_img (cli.py lines 62-75): only the gating
prelude touches the state. -/
def enhanceImgStep (st : CLIState) : CLIState := ensureWeights st

/-- State effect of pred_2d_img (cli.py lines 134-165): only the gating
prelude touches the state. -/
def predImgStep (st : CLIState) : CLIState := ensureWeights st

/-- State effect of pred_2d_imgs (cli.py lines 167-201): gate once at
the top, then run pred_2d_img once per file in the input directory. -/
def predImgsStep (n : Nat) (st : CLIState) : CLIState :=
  (List.range n).foldl (fun s _ => predImgStep s) (ensureWeights st)

/-- call_spots_cc_center of the CLI (cli.py lines 77-104): read the
enhanced image, run the caller, write the CSV; the weights state is
never consulted or modified. -/
def callSpotsCCCenterCLI (st : CLIState) (img : Image) (bt : BinaryThreshold)
    (k : Nat) : CLIState × List (List String) :=
  (st, serializeResultTable (call_spots_cc_center img bt k))

/-- call_spots_local_maxima of the CLI (cli.py lines 106-132): read the
enhanced image, run the caller, write the CSV; the weights state is
never consulted or modified. -/
def callSpotsLocalMaximaCLI (st : CLIState) (img : Image) (conn : Nat)
    (thr : ℚ) : CLIState × List (List String) :=
  (st, serializeResultTable (call_spots_local_maxima img conn thr))

/-- The CLI operations that implicitly load weights on first use. -/
inductive GatedOp where
  | enhance : GatedOp
  | predImg : GatedOp
  | predImgs : Nat → GatedOp
deriving DecidableEq, Repr

/-- State effect of one gated operation. -/
def gatedStep : GatedOp → CLIState → CLIState
  | GatedOp.enhance, st => enhanceImgStep st
  | GatedOp.predImg, st => predImgStep st
  | GatedOp.predImgs n, st => predImgsStep n st

/-- Run a sequence of gated operations on one UFishCLI instance. -/
def runGated (ops : List GatedOp) (st : CLIState) : CLIState :=
  ops.foldl (fun s o => gatedStep o s) st

/-- Where load_weights takes its weights from. -/
inductive LoadSource where
  | localPath : String → LoadSource
  | internet : Option String → Nat → Bool → LoadSource
deriving DecidableEq, Repr

/-- Whether a load source is an internet download. -/
def LoadSource.isInternet : LoadSource → Bool
  | LoadSource.internet _ _ _ => true
  | _ => false

/-- Embedded from cli.py lines 51-58: the dispatch of load_weights — a
given weights_path loads from that local file, otherwise the weights
are fetched from the internet with the given weights_file, max_retry
and force_download arguments. -/
def loadWeightsSource (weights_path : Option String) (weights_file : Option String)
    (max_retry : Nat) (force_download : Bool) : LoadSource :=
  match weights_path with
  | some p => LoadSource.localPath p
  | none => LoadSource.internet weights_file max_retry force_download

section ComponentLemmas

variable {α : Type}

/-- The two halves of a flood fill together are a permutation of its
input, for every fuel. -/
lemma flood_perm (adj : α → α → Bool) :
    ∀ (fuel : Nat) (stack pool : List α),
      List.Perm ((flood adj fuel stack pool).1 ++ (flood adj fuel stack pool).2)
        (stack ++ pool) := by
  intro fuel
  induction fuel with
  | zero =>
      intro stack pool
      cases stack with
      | nil => simp [flood]
      | cons p st => simp [flood]
  | succ n ih =>
      intro stack pool
      cases stack with
      | nil => simp [flood]
      | cons p st =>
          have h1 := ih (st ++ pool.filter (fun q => adj p q))
            (pool.filter (fun q => !adj p q))
          have h2 : List.Perm
              ((st ++ pool.filter (fun q => adj p q)) ++ pool.filter (fun q => !adj p q))
              (st ++ pool) := by
            rw [List.append_assoc]
            exact List.Perm.append_left st (List.filter_append_perm _ pool)
          simpa [flood] using (h1.trans h2).cons p

/-- The leftover pool of a flood fill is a sublist of the input pool. -/
lemma flood_snd_subset (adj : α → α → Bool) :
    ∀ (fuel : Nat) (stack pool : List α) (q : α),
      q ∈ (flood adj fuel stack pool).2 → q ∈ pool := by
  intro fuel
  induction fuel with
  | zero =>
      intro stack pool q
      cases stack with
      | nil => simp [flood]
      | cons p st => simp [flood]
  | succ n ih =>
      intro stack pool q
      cases stack with
      | nil => simp [flood]
      | cons p st =>
          intro hq
          simp only [flood] at hq
          exact List.mem_of_mem_filter (ih _ _ _ hq)

/-- The leftover pool of a flood fill is no longer than the input pool. -/
lemma flood_snd_length_le (adj : α → α → Bool) :
    ∀ (fuel : Nat) (stack pool : List α),
      (flood adj fuel stack pool).2.length ≤ pool.length := by
  intro fuel
  induction fuel with
  | zero =>
      intro stack pool
      cases stack with
      | nil => simp [flood]
      | cons p st => simp [flood]
  | succ n ih =>
      intro stack pool
      cases stack with
      | nil => simp [flood]
      | cons p st =>
          simp only [flood]
          exact le_trans (ih _ _) (List.length_filter_le _ pool)

/-- Everything the flood fill collects is reachable from a root that
reaches every stack entry, the chain staying inside the ambient list. -/
lemma flood_fst_reach (adj : α → α → Bool) :
    ∀ (fuel : Nat) (amb : List α) (r : α) (stack pool : List α),
      (∀ s ∈ stack, ReachIn adj amb r s) → (∀ s ∈ stack, s ∈ amb) →
      (∀ q ∈ pool, q ∈ amb) →
      ∀ x ∈ (flood adj fuel stack pool).1, ReachIn adj amb r x := by
  intro fuel
  induction fuel with
  | zero =>
      intro amb r stack pool hreach hstack hpool x hx
      cases stack with
      | nil => simp [flood] at hx
      | cons p st =>
          simp only [flood] at hx
          exact hreach x hx
  | succ n ih =>
      intro amb r stack pool hreach hstack hpool x hx
      cases stack with
      | nil => simp [flood] at hx
      | cons p st =>
          simp only [flood, List.cons_append, List.mem_cons] at hx
          rcases hx with rfl | hx
          · exact hreach x (List.mem_cons_self x st)
          · refine ih amb r (st ++ pool.filter (fun q => adj p q))
              (pool.filter (fun q => !adj p q)) ?_ ?_ ?_ x hx
            · intro s hs
              rcases List.mem_append.mp hs with hs | hs
              · exact hreach s (List.mem_cons_of_mem p hs)
              · refine Relation.ReflTransGen.tail (hreach p (List.mem_cons_self p st)) ?_
                exact ⟨hstack p (List.mem_cons_self p st),
                  hpool s (List.mem_of_mem_filter hs), List.of_mem_filter hs⟩
            · intro s hs
              rcases List.mem_append.mp hs with hs | hs
              · exact hstack s (List.mem_cons_of_mem p hs)
              · exact hpool s (List.mem_of_mem_filter hs)
            · intro q hq
              exact hpool q (List.mem_of_mem_filter hq)

/-- With sufficient fuel, nothing in the leftover pool is adjacent to
anything the flood fill collected. -/
lemma flood_fst_sep (adj : α → α → Bool) :
    ∀ (fuel : Nat) (stack pool : List α),
      stack.length + pool.length ≤ fuel →
      ∀ x ∈ (flood adj fuel stack pool).1, ∀ q ∈ (flood adj fuel stack pool).2,
        adj x q = false := by
  intro fuel
  induction fuel with
  | zero =>
      intro stack pool hfuel x hx q hq
      cases stack with
      | nil => simp [flood] at hx
      | cons p st => simp at hfuel
  | succ n ih =>
      intro stack pool hfuel x hx q hq
      cases stack with
      | nil => simp [flood] at hx
      | cons p st =>
          have hsplit : (pool.filter (fun q => adj p q)).length +
              (pool.filter (fun q => !adj p q)).length = pool.length := by
            have h := (List.filter_append_perm (fun q => adj p q) pool).length_eq
            simpa [List.length_append] using h
          have hlen : (st ++ pool.filter (fun q => adj p q)).length +
              (pool.filter (fun q => !adj p q)).length ≤ n := by
            simp only [List.length_append]
            simp only [List.length_cons] at hfuel
            omega
          simp only [flood, List.mem_cons] at hx hq
          rcases hx with rfl | hx
          · have hq2 := flood_snd_subset adj n _ _ q hq
            have := List.of_mem_filter hq2
            simpa using this
          · exact ih _ _ hlen x hx q hq

/-- The regions found by repeated flood fill are a permutation of the
input, for every fuel. -/
lemma componentsAux_flatten_perm (adj : α → α → Bool) :
    ∀ (fuel : Nat) (pts : List α),
      List.Perm (componentsAux adj fuel pts).flatten pts := by
  intro fuel
  induction fuel with
  | zero =>
      intro pts
      cases pts with
      | nil => simp [componentsAux]
      | cons p pool => simp [componentsAux]
  | succ n ih =>
      intro pts
      cases pts with
      | nil => simp [componentsAux]
      | cons p pool =>
          simp only [componentsAux, List.flatten_cons]
          have h1 := List.Perm.append_left (flood adj (pool.length + 1) [p] pool).1
            (ih (flood adj (pool.length + 1) [p] pool).2)
          exact h1.trans (flood_perm adj (pool.length + 1) [p] pool)

/-- Every member of a region belongs to the input list. -/
lemma mem_of_mem_componentsAux (adj : α → α → Bool) (fuel : Nat) (pts : List α)
    (c : List α) (hc : c ∈ componentsAux adj fuel pts) (x : α) (hx : x ∈ c) : x ∈ pts :=
  (componentsAux_flatten_perm adj fuel pts).mem_iff.mp (List.mem_flatten_of_mem hc hx)

/-- No region found by repeated flood fill is empty. -/
lemma componentsAux_ne_nil (adj : α → α → Bool) :
    ∀ (fuel : Nat) (pts : List α) (c : List α), c ∈ componentsAux adj fuel pts → c ≠ [] := by
  intro fuel
  induction fuel with
  | zero =>
      intro pts c hc
      cases pts with
      | nil => simp [componentsAux] at hc
      | cons p pool =>
          simp only [componentsAux, List.mem_singleton] at hc
          subst hc
          simp
  | succ n ih =>
      intro pts c hc
      cases pts with
      | nil => simp [componentsAux] at hc
      | cons p pool =>
          simp only [componentsAux, List.mem_cons] at hc
          rcases hc with rfl | hc
          · simp [flood]
          · exact ih _ _ hc

/-- Each region has a root from which every region member is reachable,
the chains staying inside an ambient list containing the input. -/
lemma componentsAux_reach_root (adj : α → α → Bool) :
    ∀ (fuel : Nat) (amb pts : List α), (∀ x ∈ pts, x ∈ amb) → pts.length ≤ fuel →
      ∀ c ∈ componentsAux adj fuel pts, ∃ r ∈ c, ∀ x ∈ c, ReachIn adj amb r x := by
  intro fuel
  induction fuel with
  | zero =>
      intro amb pts hamb hlen c hc
      cases pts with
      | nil => simp [componentsAux] at hc
      | cons p pool => simp at hlen
  | succ n ih =>
      intro amb pts hamb hlen c hc
      cases pts with
      | nil => simp [componentsAux] at hc
      | cons p pool =>
          simp only [componentsAux, List.mem_cons] at hc
          rcases hc with rfl | hc
          · refine ⟨p, ?_, ?_⟩
            · simp [flood]
            · refine flood_fst_reach adj (pool.length + 1) amb p [p] pool ?_ ?_ ?_
              · intro s hs
                simp only [List.mem_singleton] at hs
                subst hs
                exact Relation.ReflTransGen.refl
              · intro s hs
                simp only [List.mem_singleton] at hs
                subst hs
                exact hamb s (List.mem_cons_self s pool)
              · intro q hq
                exact hamb q (List.mem_cons_of_mem p hq)
          · refine ih amb (flood adj (pool.length + 1) [p] pool).2 ?_ ?_ c hc
            · intro x hx
              exact hamb x (List.mem_cons_of_mem p
                (flood_snd_subset adj (pool.length + 1) [p] pool x hx))
            · have h1 := flood_snd_length_le adj (pool.length + 1) [p] pool
              simp only [List.length_cons] at hlen
              omega

/-- Distinct regions found by repeated flood fill contain no pair of
adjacent pixels. -/
lemma componentsAux_pairwise_sep (adj : α → α → Bool) :
    ∀ (fuel : Nat) (pts : List α),
      (componentsAux adj fuel pts).Pairwise
        (fun c d => ∀ x ∈ c, ∀ q ∈ d, adj x q = false) := by
  intro fuel
  induction fuel with
  | zero =>
      intro pts
      cases pts with
      | nil => simp [componentsAux]
      | cons p pool => simp [componentsAux]
  | succ n ih =>
      intro pts
      cases pts with
      | nil => simp [componentsAux]
      | cons p pool =>
          simp only [componentsAux]
          refine List.Pairwise.cons ?_ (ih _)
          intro d hd x hx q hq
          have hq2 : q ∈ (flood adj (pool.length + 1) [p] pool).2 :=
            (componentsAux_flatten_perm adj n _).mem_iff.mp (List.mem_flatten_of_mem hd hq)
          refine flood_fst_sep adj (pool.length + 1) [p] pool ?_ x hx q hq2
          simp only [List.length_singleton]
          omega

/-- Each region is closed under adjacency within the input list, for a
symmetric adjacency relation. -/
lemma componentsAux_closed (adj : α → α → Bool)
    (hsym : ∀ a b, adj a b = adj b a) (fuel : Nat) (pts : List α)
    (c : List α) (hc : c ∈ componentsAux adj fuel pts)
    (x : α) (hx : x ∈ c) (q : α) (hq : q ∈ pts) (hadj : adj x q = true) : q ∈ c := by
  have hq2 : q ∈ (componentsAux adj fuel pts).flatten :=
    (componentsAux_flatten_perm adj fuel pts).mem_iff.mpr hq
  rcases List.mem_flatten.mp hq2 with ⟨d, hd, hqd⟩
  by_cases hcd : c = d
  · subst hcd
    exact hqd
  · exfalso
    have hsep : ∀ u ∈ c, ∀ v ∈ d, adj u v = false := by
      have hsymm : Symmetric (fun c d : List α => ∀ x ∈ c, ∀ q ∈ d, adj x q = false) := by
        intro a b hab u hu v hv
        rw [hsym]
        exact hab v hv u hu
      exact (componentsAux_pairwise_sep adj fuel pts).forall hsymm hc hd hcd
    rw [hsep x hx q hqd] at hadj
    exact Bool.noConfusion hadj

/-- Unfold a reachability chain into any predicate that holds at the
start and is preserved along adjacency steps inside the ambient list. -/
lemma reach_closed (adj : α → α → Bool) (amb : List α) (P : α → Prop)
    (hstep : ∀ u, P u → ∀ v, v ∈ amb → adj u v = true → P v)
    {a b : α} (h : ReachIn adj amb a b) (ha : P a) : P b := by
  induction h with
  | refl => exact ha
  | tail hr hs ih => exact hstep _ ih _ hs.2.1 hs.2.2

/-- Reachability is symmetric for a symmetric adjacency relation. -/
lemma reachIn_symm (adj : α → α → Bool) (hsym : ∀ a b, adj a b = adj b a)
    (amb : List α) {a b : α} (h : ReachIn adj amb a b) : ReachIn adj amb b a := by
  refine Relation.ReflTransGen.symmetric ?_ h
  intro x y hxy
  exact ⟨hxy.2.1, hxy.1, by rw [hsym]; exact hxy.2.2⟩

/-- Soundness: every region returned by the flood-fill labelling is a
connected component in the mathematical sense. -/
lemma components_sound [DecidableEq α] (adj : α → α → Bool)
    (hsym : ∀ a b, adj a b = adj b a) (pts : List α)
    (c : List α) (hc : c ∈ components adj pts) : IsComp adj pts c.toFinset := by
  have hne := componentsAux_ne_nil adj pts.length pts c hc
  obtain ⟨r, hr, hreach⟩ := componentsAux_reach_root adj pts.length pts pts
    (fun x hx => hx) (le_refl _) c hc
  refine ⟨?_, ?_, ?_, ?_⟩
  · rcases List.exists_mem_of_ne_nil c hne with ⟨x, hx⟩
    exact ⟨x, List.mem_toFinset.mpr hx⟩
  · intro p hp
    exact mem_of_mem_componentsAux adj pts.length pts c hc p (List.mem_toFinset.mp hp)
  · intro p hp q hq
    exact (reachIn_symm adj hsym pts (hreach p (List.mem_toFinset.mp hp))).trans
      (hreach q (List.mem_toFinset.mp hq))
  · intro p hp q hq hadj
    exact List.mem_toFinset.mpr (componentsAux_closed adj hsym pts.length pts c hc
      p (List.mem_toFinset.mp hp) q hq hadj)

/-- Completeness: every connected component in the mathematical sense is
one of the regions returned by the flood-fill labelling. -/
lemma components_complete [DecidableEq α] (adj : α → α → Bool)
    (hsym : ∀ a b, adj a b = adj b a) (pts : List α)
    (S : Finset α) (hS : IsComp adj pts S) :
    ∃ c ∈ components adj pts, c.toFinset = S := by
  obtain ⟨⟨p, hp⟩, hsub, hconn, hclosed⟩ := hS
  have hp2 : p ∈ (components adj pts).flatten :=
    (componentsAux_flatten_perm adj pts.length pts).mem_iff.mpr (hsub p hp)
  rcases List.mem_flatten.mp hp2 with ⟨c, hcmem, hpc⟩
  refine ⟨c, hcmem, ?_⟩
  obtain ⟨r, hr, hreach⟩ := componentsAux_reach_root adj pts.length pts pts
    (fun x hx => hx) (le_refl _) c hcmem
  apply Finset.ext
  intro x
  constructor
  · intro hx
    have hpx : ReachIn adj pts p x :=
      (reachIn_symm adj hsym pts (hreach p hpc)).trans (hreach x (List.mem_toFinset.mp hx))
    exact reach_closed adj pts (fun y => y ∈ S)
      (fun u hu v hv hadj => hclosed u hu v hv hadj) hpx hp
  · intro hx
    refine List.mem_toFinset.mpr ?_
    exact reach_closed adj pts (fun y => y ∈ c)
      (fun u hu v hv hadj =>
        componentsAux_closed adj hsym pts.length pts c hcmem u hu v hv hadj)
      (hconn p hp x hx) hpc

/-- For duplicate-free input the regions are jointly duplicate-free. -/
lemma components_flatten_nodup (adj : α → α → Bool) (pts : List α) (hnd : pts.Nodup) :
    (components adj pts).flatten.Nodup :=
  (componentsAux_flatten_perm adj pts.length pts).symm.nodup hnd

/-- For duplicate-free input each region is duplicate-free. -/
lemma components_nodup_each (adj : α → α → Bool) (pts : List α) (hnd : pts.Nodup)
    (c : List α) (hc : c ∈ components adj pts) : c.Nodup :=
  (List.nodup_flatten.mp (components_flatten_nodup adj pts hnd)).1 c hc

/-- For duplicate-free input the regions have pairwise distinct pixel
sets. -/
lemma components_map_toFinset_nodup [DecidableEq α] (adj : α → α → Bool)
    (pts : List α) (hnd : pts.Nodup) :
    ((components adj pts).map List.toFinset).Nodup := by
  have hdisj := (List.nodup_flatten.mp (components_flatten_nodup adj pts hnd)).2
  have hpw : (components adj pts).Pairwise
      (fun c d => List.toFinset c ≠ List.toFinset d) := by
    refine hdisj.imp_of_mem ?_
    intro c d hcmem hdmem hcd
    have hne := componentsAux_ne_nil adj pts.length pts c hcmem
    rcases List.exists_mem_of_ne_nil c hne with ⟨x, hx⟩
    intro heq
    have hxd : x ∈ d := by
      have h1 : x ∈ List.toFinset d := heq ▸ List.mem_toFinset.mpr hx
      exact List.mem_toFinset.mp h1
    exact hcd hx hxd
  exact List.Pairwise.map List.toFinset (fun a b h => h) hpw

end ComponentLemmas

/-! ## Basic facts about coordinates and adjacency -/

/-- Membership in the raster coordinate list is exactly in-boundedness. -/
lemma mem_rasterCoords (img : Image) (p : Coord) :
    p ∈ rasterCoords img ↔ p.1 < img.rows ∧ p.2 < img.cols := by
  cases p with
  | mk r c =>
      simp only [rasterCoords, List.mem_flatMap, List.mem_map, List.mem_range]
      constructor
      · rintro ⟨a, ha, b, hb, heq⟩
        cases heq
        exact ⟨ha, hb⟩
      · rintro ⟨hr, hc⟩
        exact ⟨r, hr, c, hc, rfl⟩

/-- The raster coordinate list has no duplicates. -/
lemma rasterCoords_nodup (img : Image) : (rasterCoords img).Nodup := by
  rw [rasterCoords, List.nodup_flatMap]
  constructor
  · intro r hr
    refine List.Nodup.map ?_ (List.nodup_range _)
    intro a b hab
    simpa using congrArg Prod.snd hab
  · refine List.Pairwise.imp ?_ (List.pairwise_lt_range _)
    intro a b hab x hx1 hx2
    rcases List.mem_map.mp hx1 with ⟨u, hu, rfl⟩
    rcases List.mem_map.mp hx2 with ⟨v, hv, hvx⟩
    have : b = a := congrArg Prod.fst hvx
    omega

/-- Pixel adjacency is symmetric. -/
lemma nbr_symm (conn : Nat) (p q : Coord) : nbr conn p q = nbr conn q p := by
  unfold nbr
  rw [Nat.dist_comm p.1 q.1, Nat.dist_comm p.2 q.2,
    show decide (p ≠ q) = decide (q ≠ p) from decide_eq_decide.mpr ne_comm]

/-- Plateau adjacency is symmetric. -/
lemma plateauAdj_symm (img : Image) (conn : Nat) (p q : Coord) :
    plateauAdj img conn p q = plateauAdj img conn q p := by
  unfold plateauAdj
  rw [nbr_symm,
    show decide (img.val p.1 p.2 = img.val q.1 q.2) =
        decide (img.val q.1 q.2 = img.val p.1 p.2) from decide_eq_decide.mpr eq_comm]

/-- The mask coordinate list has no duplicates. -/
lemma maskCoords_nodup (img : Image) (bt : BinaryThreshold) : (maskCoords img bt).Nodup :=
  (rasterCoords_nodup img).filter _

/-- The local-maxima coordinate list has no duplicates. -/
lemma maximaCoords_nodup (img : Image) (conn : Nat) (thr : ℚ) :
    (maximaCoords img conn thr).Nodup :=
  (rasterCoords_nodup img).filter _

/-! ## Claim C1 -/

/-- C1: for every enhanced image, the connected-component caller returns
exactly one Spot per 8-connected component of the binarized mask whose
pixel count is at least cc_size_thresh (components strictly below the
threshold are discarded), and the coordinate of each Spot on every axis is
the intensity-weighted centroid over the pixels of the component, weighted by
the original pre-threshold intensities of the image. -/
theorem C1_cc_center_components (img : Image) (bt : BinaryThreshold) (k : Nat) :
    (∀ S : Finset Coord, IsComp (nbr 2) (maskCoords img bt) S ↔
        ∃ c ∈ ccomps img bt, c.toFinset = S) ∧
    ((ccomps img bt).map List.toFinset).Nodup ∧
    (∀ c ∈ ccomps img bt, c.Nodup) ∧
    call_spots_cc_center img bt k =
      ((ccomps img bt).filter (fun c => decide (k ≤ c.length))).map (fun c =>
        { c0 := (c.map (fun p => (p.1 : ℚ) * img.val p.1 p.2)).sum /
              (c.map (fun p => img.val p.1 p.2)).sum
          c1 := (c.map (fun p => (p.2 : ℚ) * img.val p.1 p.2)).sum /
              (c.map (fun p => img.val p.1 p.2)).sum
          intensity := (c.map (fun p => img.val p.1 p.2 * img.val p.1 p.2)).sum /
              (c.map (fun p => img.val p.1 p.2)).sum }) := by
  refine ⟨?_, ?_, ?_, rfl⟩
  · intro S
    constructor
    · intro hS
      exact components_complete (nbr 2) (nbr_symm 2) (maskCoords img bt) S hS
    · rintro ⟨c, hc, rfl⟩
      exact components_sound (nbr 2) (nbr_symm 2) (maskCoords img bt) c hc
  · exact components_map_toFinset_nodup (nbr 2) (maskCoords img bt) (maskCoords_nodup img bt)
  · intro c hc
    exact components_nodup_each (nbr 2) (maskCoords img bt) (maskCoords_nodup img bt) c hc

/-! ## Claim C2 -/

/-- C2: for a fixed image and binary threshold, raising cc_size_thresh
never increases the number of Spots returned by the connected-component
caller. -/
theorem C2_cc_size_monotone (img : Image) (bt : BinaryThreshold)
    (t1 t2 : Nat) (h : t1 ≤ t2) :
    (call_spots_cc_center img bt t2).length ≤ (call_spots_cc_center img bt t1).length := by
  unfold call_spots_cc_center
  simp only [List.length_map]
  refine List.Sublist.length_le ?_
  refine List.monotone_filter_right _ ?_
  intro c hc
  simp only [decide_eq_true_eq] at hc ⊢
  omega

/-- Witness for C2 at a concrete image and thresholds. -/
theorem C2_cc_size_monotone_witness : 1 ≤ 2 ∧
    (call_spots_cc_center patchImage (BinaryThreshold.value 6) 2).length ≤
      (call_spots_cc_center patchImage (BinaryThreshold.value 6) 1).length :=
  ⟨by decide, C2_cc_size_monotone patchImage (BinaryThreshold.value 6) 1 2 (by decide)⟩

/-! ## Claim C3 -/

/-- Raising the intensity threshold filters the local-maxima list. -/
lemma maximaCoords_filter (img : Image) (conn : Nat) {t1 t2 : ℚ} (h : t1 ≤ t2) :
    maximaCoords img conn t2 =
      (maximaCoords img conn t1).filter (fun p => decide (t2 < img.val p.1 p.2)) := by
  unfold maximaCoords
  rw [List.filter_filter]
  refine List.filter_congr ?_
  intro p hp
  unfold isLocalMax
  by_cases h2 : t2 < img.val p.1 p.2
  · have h1 : t1 < img.val p.1 p.2 := lt_of_le_of_lt h h2
    simp [h1, h2]
  · simp [h2]

/-- A pixel that is a local maximum for the higher threshold is one for
the lower threshold. -/
lemma mem_maximaCoords_mono (img : Image) (conn : Nat) {t1 t2 : ℚ} (h : t1 ≤ t2)
    (x : Coord) (hx : x ∈ maximaCoords img conn t2) : x ∈ maximaCoords img conn t1 := by
  rw [maximaCoords_filter img conn h] at hx
  exact List.mem_of_mem_filter hx

/-- The threshold test is uniform across a plateau, so a plateau for the
higher threshold is also a plateau for the lower one: a connected
component of the higher-threshold maxima under plateau adjacency is a
connected component of the lower-threshold maxima. -/
lemma isComp_plateau_mono (img : Image) (conn : Nat) {t1 t2 : ℚ} (h : t1 ≤ t2)
    (S : Finset Coord)
    (hS : IsComp (plateauAdj img conn) (maximaCoords img conn t2) S) :
    IsComp (plateauAdj img conn) (maximaCoords img conn t1) S := by
  obtain ⟨hne, hsub, hconn, hclosed⟩ := hS
  refine ⟨hne, fun p hp => mem_maximaCoords_mono img conn h p (hsub p hp), ?_, ?_⟩
  · intro p hp q hq
    refine Relation.ReflTransGen.mono ?_ (hconn p hp q hq)
    intro a b hab
    exact ⟨mem_maximaCoords_mono img conn h a hab.1,
      mem_maximaCoords_mono img conn h b hab.2.1, hab.2.2⟩
  · intro p hp q hq hadj
    refine hclosed p hp q ?_ hadj
    have hadj2 := hadj
    unfold plateauAdj at hadj2
    simp only [Bool.and_eq_true, decide_eq_true_eq] at hadj2
    have hval : img.val p.1 p.2 = img.val q.1 q.2 := hadj2.2
    have hpM2 := hsub p hp
    unfold maximaCoords at hq hpM2 ⊢
    rw [List.mem_filter] at hq hpM2 ⊢
    refine ⟨hq.1, ?_⟩
    unfold isLocalMax at hq hpM2 ⊢
    simp only [Bool.and_eq_true, decide_eq_true_eq] at hq hpM2 ⊢
    exact ⟨hq.2.1, hval ▸ hpM2.2.2⟩

/-- The number of plateaus equals the number of distinct plateau pixel
sets. -/
lemma plateaus_length_eq_card (img : Image) (conn : Nat) (thr : ℚ) :
    (plateaus img conn thr).length =
      ((plateaus img conn thr).map List.toFinset).toFinset.card := by
  have hnd : ((plateaus img conn thr).map List.toFinset).Nodup :=
    components_map_toFinset_nodup (plateauAdj img conn) (maximaCoords img conn thr)
      (maximaCoords_nodup img conn thr)
  rw [List.toFinset_card_of_nodup hnd, List.length_map]

/-- C3: for a fixed image and connectivity, raising intensity_threshold
never increases the number of Spots returned by the local-maxima
caller. -/
theorem C3_lm_threshold_monotone (img : Image) (conn : Nat)
    (t1 t2 : ℚ) (h : t1 ≤ t2) :
    (call_spots_local_maxima img conn t2).length ≤
      (call_spots_local_maxima img conn t1).length := by
  unfold call_spots_local_maxima
  simp only [List.length_map]
  rw [plateaus_length_eq_card img conn t2, plateaus_length_eq_card img conn t1]
  refine Finset.card_le_card ?_
  intro S hS
  rw [List.mem_toFinset, List.mem_map] at hS
  rcases hS with ⟨c, hc, rfl⟩
  have hcomp : IsComp (plateauAdj img conn) (maximaCoords img conn t2) c.toFinset :=
    components_sound (plateauAdj img conn) (plateauAdj_symm img conn)
      (maximaCoords img conn t2) c hc
  have hcomp1 := isComp_plateau_mono img conn h c.toFinset hcomp
  rcases components_complete (plateauAdj img conn) (plateauAdj_symm img conn)
      (maximaCoords img conn t1) c.toFinset hcomp1 with ⟨d, hd, hdeq⟩
  rw [List.mem_toFinset, List.mem_map]
  exact ⟨d, hd, hdeq⟩

/-- Witness for C3 at a concrete image and thresholds. -/
theorem C3_lm_threshold_monotone_witness : (1 : ℚ) ≤ 3 ∧
    (call_spots_local_maxima patchImage 2 3).length ≤
      (call_spots_local_maxima patchImage 2 1).length :=
  ⟨by norm_num, C3_lm_threshold_monotone patchImage 2 1 3 (by norm_num)⟩

/-! ## Claim C5 -/

attribute [local semireducible] Rat.add Rat.mul Rat.inv Rat.sub

/-- C5: every plateau — every connected component of the local-maxima
set under equal-intensity adjacency — yields exactly one Spot,
positioned at the unweighted mean of its pixel coordinates; in
particular the 3 by 3 flat patch of value 10 on a background of value 5,
with connectivity 2 and intensity threshold 1, yields exactly one Spot
at the patch center (2, 2) with intensity 10. -/
theorem C5_plateau_dedup :
    (∀ (img : Image) (conn : Nat) (thr : ℚ),
      (∀ S : Finset Coord,
        IsComp (plateauAdj img conn) (maximaCoords img conn thr) S ↔
          ∃ pl ∈ plateaus img conn thr, pl.toFinset = S) ∧
      ((plateaus img conn thr).map List.toFinset).Nodup ∧
      call_spots_local_maxima img conn thr =
        (plateaus img conn thr).map (fun pl =>
          { c0 := (pl.map (fun p => (p.1 : ℚ))).sum / (pl.length : ℚ)
            c1 := (pl.map (fun p => (p.2 : ℚ))).sum / (pl.length : ℚ)
            intensity := img.val (pl.headD (0, 0)).1 (pl.headD (0, 0)).2 })) ∧
    call_spots_local_maxima patchImage 2 1 = [{ c0 := 2, c1 := 2, intensity := 10 }] := by
  constructor
  · intro img conn thr
    refine ⟨?_, ?_, rfl⟩
    · intro S
      constructor
      · intro hS
        exact components_complete (plateauAdj img conn) (plateauAdj_symm img conn)
          (maximaCoords img conn thr) S hS
      · rintro ⟨pl, hpl, rfl⟩
        exact components_sound (plateauAdj img conn) (plateauAdj_symm img conn)
          (maximaCoords img conn thr) pl hpl
    · exact components_map_toFinset_nodup (plateauAdj img conn)
        (maximaCoords img conn thr) (maximaCoords_nodup img conn thr)
  · decide

/-! ## Claim C4 -/

/-- C4 as stated is false: with a negative intensity among the weights
the intensity-weighted centroid can leave the image bounds.  On the 1 by
2 image with intensities 2 and -1, threshold -2 and size threshold 1,
the caller emits a Spot with column coordinate -1. -/
theorem C4_spot_bounds_counterexample :
    call_spots_cc_center mixedSignImage (BinaryThreshold.value (-2)) 1 =
      [{ c0 := 0, c1 := -1, intensity := 5 }] ∧
    ∃ s, s ∈ call_spots_cc_center mixedSignImage (BinaryThreshold.value (-2)) 1 ∧
      s.c1 < 0 :=
  ⟨by decide, { c0 := 0, c1 := -1, intensity := 5 }, by decide, by decide⟩

/-- A list length as a sum of ones. -/
lemma length_eq_sum_ones (l : List Coord) :
    ((l.length : ℚ)) = (l.map (fun _ => (1 : ℚ))).sum := by
  induction l with
  | nil => simp
  | cons a t ih =>
      simp only [List.length_cons, List.map_cons, List.sum_cons]
      push_cast
      rw [ih]
      ring

/-- Bounds for a weighted mean with nonnegative weights of values lying
in [0, d-1], with the junk-division convention sending a zero weight sum
to zero. -/
lemma weighted_mean_bounds (f w : Coord → ℚ) (c : List Coord) (d : ℚ)
    (hw : ∀ p ∈ c, 0 ≤ w p)
    (hf : ∀ p ∈ c, 0 ≤ f p ∧ f p ≤ d - 1) (hd : 1 ≤ d) :
    0 ≤ (c.map (fun p => f p * w p)).sum / (c.map w).sum ∧
      (c.map (fun p => f p * w p)).sum / (c.map w).sum < d := by
  have hW0 : 0 ≤ (c.map w).sum := by
    refine List.sum_nonneg ?_
    intro x hx
    rcases List.mem_map.mp hx with ⟨p, hp, rfl⟩
    exact hw p hp
  have hnum0 : 0 ≤ (c.map (fun p => f p * w p)).sum := by
    refine List.sum_nonneg ?_
    intro x hx
    rcases List.mem_map.mp hx with ⟨p, hp, rfl⟩
    exact mul_nonneg (hf p hp).1 (hw p hp)
  by_cases hW : (c.map w).sum = 0
  · rw [hW, div_zero]
    exact ⟨le_refl 0, lt_of_lt_of_le zero_lt_one hd⟩
  · have hWpos : 0 < (c.map w).sum := lt_of_le_of_ne hW0 (Ne.symm hW)
    refine ⟨div_nonneg hnum0 hW0, ?_⟩
    rw [div_lt_iff₀ hWpos]
    have hb : (c.map (fun p => f p * w p)).sum ≤ (d - 1) * (c.map w).sum := by
      rw [← List.sum_map_mul_left]
      refine List.sum_le_sum ?_
      intro p hp
      exact mul_le_mul_of_nonneg_right (hf p hp).2 (hw p hp)
    calc (c.map (fun p => f p * w p)).sum ≤ (d - 1) * (c.map w).sum := hb
      _ < d * (c.map w).sum := by
          refine mul_lt_mul_of_pos_right ?_ hWpos
          linarith

/-- C4 amended: for every image all of whose in-bounds intensities are
nonnegative (the counterexample shows a negative weight can push the
intensity-weighted centroid out of bounds), every Spot emitted by either
caller has coordinates within the image bounds on every axis. -/
theorem C4_amended_spot_bounds (img : Image) (bt : BinaryThreshold) (k : Nat)
    (conn : Nat) (thr : ℚ)
    (hnonneg : ∀ r, r < img.rows → ∀ c, c < img.cols → 0 ≤ img.val r c) :
    (∀ s ∈ call_spots_cc_center img bt k,
      (0 ≤ s.c0 ∧ s.c0 < (img.rows : ℚ)) ∧ (0 ≤ s.c1 ∧ s.c1 < (img.cols : ℚ))) ∧
    (∀ s ∈ call_spots_local_maxima img conn thr,
      (0 ≤ s.c0 ∧ s.c0 < (img.rows : ℚ)) ∧ (0 ≤ s.c1 ∧ s.c1 < (img.cols : ℚ))) := by
  constructor
  · intro s hs
    rw [call_spots_cc_center, List.mem_map] at hs
    rcases hs with ⟨c, hcf, rfl⟩
    have hcmem : c ∈ ccomps img bt := List.mem_of_mem_filter hcf
    have hcne : c ≠ [] :=
      componentsAux_ne_nil (nbr 2) (maskCoords img bt).length (maskCoords img bt) c hcmem
    have hbound : ∀ p ∈ c, p.1 < img.rows ∧ p.2 < img.cols := by
      intro p hp
      have h1 := mem_of_mem_componentsAux (nbr 2) (maskCoords img bt).length
        (maskCoords img bt) c hcmem p hp
      exact (mem_rasterCoords img p).mp (List.mem_of_mem_filter h1)
    rcases List.exists_mem_of_ne_nil c hcne with ⟨p0, hp0⟩
    have hrows : 1 ≤ img.rows := by
      have := (hbound p0 hp0).1
      omega
    have hcols : 1 ≤ img.cols := by
      have := (hbound p0 hp0).2
      omega
    have hw : ∀ p ∈ c, 0 ≤ img.val p.1 p.2 := fun p hp =>
      hnonneg p.1 (hbound p hp).1 p.2 (hbound p hp).2
    constructor
    · have h := weighted_mean_bounds (fun p => (p.1 : ℚ)) (fun p => img.val p.1 p.2) c
        (img.rows : ℚ) hw ?_ ?_
      · simpa [ccSpot, sumIntensity] using h
      · intro p hp
        refine ⟨Nat.cast_nonneg _, ?_⟩
        have h2 : p.1 + 1 ≤ img.rows := (hbound p hp).1
        have h3 : ((p.1 + 1 : ℕ) : ℚ) ≤ ((img.rows : ℕ) : ℚ) := Nat.cast_le.mpr h2
        push_cast at h3
        linarith
      · exact_mod_cast hrows
    · have h := weighted_mean_bounds (fun p => (p.2 : ℚ)) (fun p => img.val p.1 p.2) c
        (img.cols : ℚ) hw ?_ ?_
      · simpa [ccSpot, sumIntensity] using h
      · intro p hp
        refine ⟨Nat.cast_nonneg _, ?_⟩
        have h2 : p.2 + 1 ≤ img.cols := (hbound p hp).2
        have h3 : ((p.2 + 1 : ℕ) : ℚ) ≤ ((img.cols : ℕ) : ℚ) := Nat.cast_le.mpr h2
        push_cast at h3
        linarith
      · exact_mod_cast hcols
  · intro s hs
    rw [call_spots_local_maxima, List.mem_map] at hs
    rcases hs with ⟨pl, hplmem, rfl⟩
    have hplne : pl ≠ [] :=
      componentsAux_ne_nil (plateauAdj img conn) (maximaCoords img conn thr).length
        (maximaCoords img conn thr) pl hplmem
    have hbound : ∀ p ∈ pl, p.1 < img.rows ∧ p.2 < img.cols := by
      intro p hp
      have h1 := mem_of_mem_componentsAux (plateauAdj img conn)
        (maximaCoords img conn thr).length (maximaCoords img conn thr) pl hplmem p hp
      exact (mem_rasterCoords img p).mp (List.mem_of_mem_filter h1)
    rcases List.exists_mem_of_ne_nil pl hplne with ⟨p0, hp0⟩
    have hrows : 1 ≤ img.rows := by
      have := (hbound p0 hp0).1
      omega
    have hcols : 1 ≤ img.cols := by
      have := (hbound p0 hp0).2
      omega
    have hone : ∀ p ∈ pl, (0 : ℚ) ≤ (fun _ : Coord => (1 : ℚ)) p := by
      intro p hp
      norm_num
    have hmap0 : pl.map (fun p => (p.1 : ℚ)) =
        pl.map (fun p => (p.1 : ℚ) * (fun _ : Coord => (1 : ℚ)) p) := by
      refine List.map_congr_left ?_
      intro p hp
      simp
    have hmap1 : pl.map (fun p => (p.2 : ℚ)) =
        pl.map (fun p => (p.2 : ℚ) * (fun _ : Coord => (1 : ℚ)) p) := by
      refine List.map_congr_left ?_
      intro p hp
      simp
    constructor
    · have h := weighted_mean_bounds (fun p => (p.1 : ℚ)) (fun _ => (1 : ℚ)) pl
        (img.rows : ℚ) hone ?_ ?_
      · simp only [plateauSpot]
        rw [length_eq_sum_ones pl, hmap0]
        exact h
      · intro p hp
        refine ⟨Nat.cast_nonneg _, ?_⟩
        have h2 : p.1 + 1 ≤ img.rows := (hbound p hp).1
        have h3 : ((p.1 + 1 : ℕ) : ℚ) ≤ ((img.rows : ℕ) : ℚ) := Nat.cast_le.mpr h2
        push_cast at h3
        linarith
      · exact_mod_cast hrows
    · have h := weighted_mean_bounds (fun p => (p.2 : ℚ)) (fun _ => (1 : ℚ)) pl
        (img.cols : ℚ) hone ?_ ?_
      · simp only [plateauSpot]
        rw [length_eq_sum_ones pl, hmap1]
        exact h
      · intro p hp
        refine ⟨Nat.cast_nonneg _, ?_⟩
        have h2 : p.2 + 1 ≤ img.cols := (hbound p hp).2
        have h3 : ((p.2 + 1 : ℕ) : ℚ) ≤ ((img.cols : ℕ) : ℚ) := Nat.cast_le.mpr h2
        push_cast at h3
        linarith
      · exact_mod_cast hcols

/-- Witness for the amended C4 at a concrete nonnegative image. -/
theorem C4_amended_spot_bounds_witness :
    (∀ r, r < patchImage.rows → ∀ c, c < patchImage.cols → 0 ≤ patchImage.val r c) ∧
    ((∀ s ∈ call_spots_cc_center patchImage (BinaryThreshold.value 6) 1,
      (0 ≤ s.c0 ∧ s.c0 < (patchImage.rows : ℚ)) ∧
        (0 ≤ s.c1 ∧ s.c1 < (patchImage.cols : ℚ))) ∧
    (∀ s ∈ call_spots_local_maxima patchImage 2 1,
      (0 ≤ s.c0 ∧ s.c0 < (patchImage.rows : ℚ)) ∧
        (0 ≤ s.c1 ∧ s.c1 < (patchImage.cols : ℚ)))) :=
  ⟨by decide, C4_amended_spot_bounds patchImage (BinaryThreshold.value 6) 1 2 1 (by decide)⟩

/-! ## Claim C6 -/

/-- C6: degenerate-empty inputs are not errors — a binarized mask with
no foreground pixels makes the connected-component caller return an
empty ResultTable, and an intensity threshold exceeding every pixel
value makes the local-maxima caller return an empty ResultTable. -/
theorem C6_empty_results (img : Image) (bt : BinaryThreshold) (k : Nat)
    (conn : Nat) (thr : ℚ) :
    (maskCoords img bt = [] → call_spots_cc_center img bt k = []) ∧
    ((∀ r, r < img.rows → ∀ c, c < img.cols → img.val r c < thr) →
      call_spots_local_maxima img conn thr = []) := by
  constructor
  · intro h
    unfold call_spots_cc_center ccomps components
    rw [h]
    rfl
  · intro h
    have hmax : maximaCoords img conn thr = [] := by
      unfold maximaCoords
      rw [List.filter_eq_nil_iff]
      intro p hp
      have hb := (mem_rasterCoords img p).mp hp
      unfold isLocalMax
      simp only [Bool.and_eq_true, decide_eq_true_eq, not_and]
      intro _
      exact not_lt.mpr (le_of_lt (h p.1 hb.1 p.2 hb.2))
    unfold call_spots_local_maxima plateaus components
    rw [hmax]
    rfl

/-- Witness for C6 at the all-zero image. -/
theorem C6_empty_results_witness :
    call_spots_cc_center zeroImage (BinaryThreshold.value 0) 20 = [] ∧
    call_spots_local_maxima zeroImage 2 1 = [] :=
  ⟨(C6_empty_results zeroImage (BinaryThreshold.value 0) 20 2 1).1 (by decide),
   (C6_empty_results zeroImage (BinaryThreshold.value 0) 20 2 1).2 (by decide)⟩

/-! ## Claim C7 -/

/-- Digit characters decode to their digit. -/
lemma charVal_digitChar : ∀ d, d < 10 → charVal (digitChar d) = d := by decide

/-- Digit characters pass the digit test. -/
lemma isDigitCh_digitChar : ∀ d, d < 10 → isDigitCh (digitChar d) = true := by decide

/-- Digit characters are not the minus sign. -/
lemma digitChar_ne_hyphen : ∀ d, d < 10 → digitChar d ≠ '-' := by decide

/-- Digit characters are not the slash. -/
lemma digitChar_ne_slash : ∀ d, d < 10 → digitChar d ≠ '/' := by decide

/-- The decimal rendering of a natural number is nonempty. -/
lemma natChars_ne_nil (n : Nat) : natChars n ≠ [] := by
  unfold natChars
  by_cases h : n = 0
  · simp [h]
  · rw [if_neg h]
    intro hcontra
    rw [List.map_eq_nil_iff, List.reverse_eq_nil_iff] at hcontra
    exact (Nat.digits_ne_nil_iff_ne_zero.mpr h) hcontra

/-- Every character of a decimal rendering is a digit character. -/
lemma mem_natChars (n : Nat) (c : Char) (hc : c ∈ natChars n) :
    ∃ d, d < 10 ∧ c = digitChar d := by
  unfold natChars at hc
  by_cases h : n = 0
  · rw [if_pos h] at hc
    simp only [List.mem_singleton] at hc
    exact ⟨0, by omega, by rw [hc]; decide⟩
  · rw [if_neg h] at hc
    rcases List.mem_map.mp hc with ⟨d, hd, rfl⟩
    exact ⟨d, Nat.digits_lt_base (by norm_num) (List.mem_reverse.mp hd), rfl⟩

/-- Parsing inverts the decimal rendering of a natural number. -/
lemma parseNatChars_natChars (n : Nat) : parseNatChars (natChars n) = some n := by
  by_cases h : n = 0
  · subst h
    decide
  · have hall : (natChars n).all isDigitCh = true := by
      rw [List.all_eq_true]
      intro c hc
      rcases mem_natChars n c hc with ⟨d, hd, rfl⟩
      exact isDigitCh_digitChar d hd
    have hn : natChars n = ((Nat.digits 10 n).reverse).map digitChar := by
      unfold natChars
      rw [if_neg h]
    unfold parseNatChars
    rw [if_neg (natChars_ne_nil n), if_pos hall]
    congr 1
    rw [hn, List.map_map]
    have hcongr : ((Nat.digits 10 n).reverse).map (charVal ∘ digitChar) =
        ((Nat.digits 10 n).reverse).map id := by
      refine List.map_congr_left ?_
      intro d hd
      have hd10 : d < 10 := Nat.digits_lt_base (by norm_num) (List.mem_reverse.mp hd)
      simp only [Function.comp_apply, id_eq]
      exact charVal_digitChar d hd10
    rw [hcongr, List.map_id, List.reverse_reverse, Nat.ofDigits_digits]

/-- Parsing inverts the decimal rendering of an integer. -/
lemma parseIntChars_intChars (n : Int) : parseIntChars (intChars n) = some n := by
  by_cases h : n < 0
  · unfold intChars
    rw [if_pos h]
    simp only [parseIntChars, if_true]
    rw [parseNatChars_natChars]
    show some (-(n.natAbs : Int)) = some n
    congr 1
    omega
  · have hcons : ∃ c rest, natChars n.toNat = c :: rest := by
      rcases hl : natChars n.toNat with _ | ⟨c, rest⟩
      · exact absurd hl (natChars_ne_nil _)
      · exact ⟨c, rest, rfl⟩
    rcases hcons with ⟨c, rest, hl⟩
    have hcne : c ≠ '-' := by
      have hm : c ∈ natChars n.toNat := by
        rw [hl]
        exact List.mem_cons_self c rest
      rcases mem_natChars _ c hm with ⟨d, hd, rfl⟩
      exact digitChar_ne_hyphen d hd
    unfold intChars
    rw [if_neg h, hl]
    simp only [parseIntChars]
    rw [if_neg hcne, ← hl, parseNatChars_natChars]
    show some ((n.toNat : Int)) = some n
    congr 1
    omega

/-- A takeWhile and dropWhile split at the first failing element. -/
lemma takeWhile_append_stop {β : Type} (p : β → Bool) (xs : List β) (y : β) (ys : List β)
    (hxs : ∀ c ∈ xs, p c = true) (hy : p y = false) :
    (xs ++ y :: ys).takeWhile p = xs ∧ (xs ++ y :: ys).dropWhile p = y :: ys := by
  induction xs with
  | nil => simp [List.takeWhile_cons, List.dropWhile_cons, hy]
  | cons a t ih =>
      have ha : p a = true := hxs a (List.mem_cons_self a t)
      have iht := ih (fun c hc => hxs c (List.mem_cons_of_mem a hc))
      simp only [List.cons_append, List.takeWhile_cons, List.dropWhile_cons, ha,
        if_true, if_pos]
      exact ⟨by rw [iht.1], by rw [iht.2]⟩

/-- No character of an integer rendering is the slash. -/
lemma intChars_no_slash (n : Int) : ∀ c ∈ intChars n, decide (c ≠ '/') = true := by
  intro c hc
  unfold intChars at hc
  by_cases h : n < 0
  · rw [if_pos h] at hc
    rcases List.mem_cons.mp hc with rfl | hc2
    · decide
    · rcases mem_natChars _ c hc2 with ⟨d, hd, rfl⟩
      exact decide_eq_true (digitChar_ne_slash d hd)
  · rw [if_neg h] at hc
    rcases mem_natChars _ c hc with ⟨d, hd, rfl⟩
    exact decide_eq_true (digitChar_ne_slash d hd)

/-- Evaluation of the rational parser on a rendered numerator-slash-
denominator split. -/
lemma parseRatChars_eq (xs ys : List Char) (hxs : ∀ c ∈ xs, decide (c ≠ '/') = true) :
    parseRatChars (xs ++ '/' :: ys) =
      match parseIntChars xs, parseNatChars ys with
      | some n, some d => if d = 0 then none else some ((n : ℚ) / (d : ℚ))
      | _, _ => none := by
  unfold parseRatChars
  rw [(takeWhile_append_stop (fun c => decide (c ≠ '/')) xs '/' ys hxs (by decide)).1,
    (takeWhile_append_stop (fun c => decide (c ≠ '/')) xs '/' ys hxs (by decide)).2]

/-- Parsing inverts the rendering of a rational number. -/
lemma parseRatChars_ratChars (q : ℚ) : parseRatChars (ratChars q) = some q := by
  rw [show ratChars q = intChars q.num ++ '/' :: natChars q.den from rfl,
    parseRatChars_eq (intChars q.num) (natChars q.den) (intChars_no_slash q.num),
    parseIntChars_intChars, parseNatChars_natChars]
  show (if q.den = 0 then none else some ((q.num : ℚ) / (q.den : ℚ))) = some q
  rw [if_neg q.den_nz]
  exact congrArg some (Rat.num_div_den q)

/-- Parsing inverts the serialization of one Spot row. -/
lemma parseSpotRow_roundtrip (s : Spot) :
    parseSpotRow [String.mk (ratChars s.c0), String.mk (ratChars s.c1),
      String.mk (ratChars s.intensity)] = some s := by
  simp only [parseSpotRow]
  rw [parseRatChars_ratChars, parseRatChars_ratChars, parseRatChars_ratChars]
  rfl

/-- Parsing inverts the serialization of the data rows. -/
lemma parseSpotRows_roundtrip (spots : List Spot) :
    parseSpotRows (spots.map (fun s => [String.mk (ratChars s.c0),
      String.mk (ratChars s.c1), String.mk (ratChars s.intensity)])) = some spots := by
  induction spots with
  | nil => rfl
  | cons s rest ih =>
      simp only [List.map_cons, parseSpotRows, parseSpotRow_roundtrip s, ih]
      rfl

/-- C7: serializing a ResultTable to CSV and parsing it back yields the
same coordinate and intensity values exactly; the serialized form has
the fixed header row axis-0, axis-1, intensity, one data row per Spot,
and no extra (index) column. -/
theorem C7_csv_roundtrip (spots : List Spot) :
    parseResultTable (serializeResultTable spots) = some spots ∧
    (serializeResultTable spots).head? = some ["axis-0", "axis-1", "intensity"] ∧
    (serializeResultTable spots).length = spots.length + 1 ∧
    (∀ row ∈ (serializeResultTable spots).tail, row.length = 3) := by
  refine ⟨?_, rfl, ?_, ?_⟩
  · unfold serializeResultTable
    simp only [parseResultTable, if_true]
    exact parseSpotRows_roundtrip spots
  · unfold serializeResultTable
    simp
  · intro row hrow
    unfold serializeResultTable at hrow
    simp only [List.tail_cons] at hrow
    rcases List.mem_map.mp hrow with ⟨s, hs, rfl⟩
    rfl

/-! ## Claims C8, C9, C10 -/

/-- After the gating prelude the weights are loaded. -/
lemma ensureWeights_loaded (st : CLIState) : (ensureWeights st).weightsLoaded = true := by
  unfold ensureWeights
  by_cases h : st.weightsLoaded
  · rw [if_pos h]
    exact h
  · rw [if_neg h]
    rfl

/-- Iterating pred_2d_img over an already-loaded state changes
nothing. -/
lemma foldl_predImgStep_loaded (l : List Nat) (st : CLIState)
    (h : st.weightsLoaded = true) :
    l.foldl (fun s _ => predImgStep s) st = st := by
  induction l with
  | nil => rfl
  | cons a t ih =>
      simp only [List.foldl_cons]
      have hp : predImgStep st = st := by
        simp [predImgStep, ensureWeights, h]
      rw [hp]
      exact ih

/-- A gated operation on an already-loaded state changes nothing. -/
lemma gatedStep_loaded (o : GatedOp) (st : CLIState) (h : st.weightsLoaded = true) :
    gatedStep o st = st := by
  cases o with
  | enhance => simp [gatedStep, enhanceImgStep, ensureWeights, h]
  | predImg => simp [gatedStep, predImgStep, ensureWeights, h]
  | predImgs n =>
      simp only [gatedStep, predImgsStep]
      have he : ensureWeights st = st := by
        simp [ensureWeights, h]
      rw [he]
      exact foldl_predImgStep_loaded _ st h

/-- Every gated operation leaves the weights loaded. -/
lemma gatedStep_sets_loaded (o : GatedOp) (st : CLIState) :
    (gatedStep o st).weightsLoaded = true := by
  cases o with
  | enhance => exact ensureWeights_loaded st
  | predImg => exact ensureWeights_loaded st
  | predImgs n =>
      simp only [gatedStep, predImgsStep]
      rw [foldl_predImgStep_loaded _ _ (ensureWeights_loaded st)]
      exact ensureWeights_loaded st

/-- A gated operation on a fresh (unloaded) state loads the weights
exactly once. -/
lemma gatedStep_unloaded (o : GatedOp) (n : Nat) :
    gatedStep o { weightsLoaded := false, loadCount := n } =
      { weightsLoaded := true, loadCount := n + 1 } := by
  cases o with
  | enhance => rfl
  | predImg => rfl
  | predImgs m =>
      simp only [gatedStep, predImgsStep]
      rw [show ensureWeights { weightsLoaded := false, loadCount := n } =
        { weightsLoaded := true, loadCount := n + 1 } from rfl]
      exact foldl_predImgStep_loaded _ _ rfl

/-- A sequence of gated operations on an already-loaded state changes
nothing. -/
lemma runGated_loaded (ops : List GatedOp) (st : CLIState)
    (h : st.weightsLoaded = true) : runGated ops st = st := by
  induction ops with
  | nil => rfl
  | cons o t ih =>
      simp only [runGated, List.foldl_cons]
      rw [gatedStep_loaded o st h]
      exact ih

/-- Any nonempty sequence of gated operations on a fresh instance loads
the weights exactly once, on the first operation. -/
lemma runGated_cons_init (o : GatedOp) (rest : List GatedOp) :
    runGated (o :: rest) initCLIState = { weightsLoaded := true, loadCount := 1 } := by
  simp only [runGated, List.foldl_cons]
  rw [show initCLIState = { weightsLoaded := false, loadCount := 0 } from rfl,
    gatedStep_unloaded o 0]
  exact runGated_loaded rest _ rfl

/-- C8: the spot-calling operations of the CLI neither read nor modify
the weights-loaded state and never trigger load_weights, for any state;
by contrast enhance_img, pred_2d_img and pred_2d_imgs do trigger exactly
one implicit load when the weights are not yet loaded. -/
theorem C8_call_spots_frame (st : CLIState) (img : Image) (bt : BinaryThreshold)
    (k conn : Nat) (thr : ℚ) :
    (callSpotsCCCenterCLI st img bt k).1 = st ∧
    (callSpotsLocalMaximaCLI st img conn thr).1 = st ∧
    (callSpotsCCCenterCLI st img bt k).1.loadCount = st.loadCount ∧
    (callSpotsLocalMaximaCLI st img conn thr).1.loadCount = st.loadCount ∧
    (∀ n : Nat, enhanceImgStep { weightsLoaded := false, loadCount := n } =
      { weightsLoaded := true, loadCount := n + 1 }) ∧
    (∀ n : Nat, predImgStep { weightsLoaded := false, loadCount := n } =
      { weightsLoaded := true, loadCount := n + 1 }) ∧
    (∀ m n : Nat, predImgsStep m { weightsLoaded := false, loadCount := n } =
      { weightsLoaded := true, loadCount := n + 1 }) :=
  ⟨rfl, rfl, rfl, rfl, fun _ => rfl, fun _ => rfl,
   fun m n => gatedStep_unloaded (GatedOp.predImgs m) n⟩

/-- C9: the weights-loaded flag starts false, is true after load_weights
and after every gated operation, and across any sequence of enhance_img,
pred_2d_img and pred_2d_imgs calls on one instance the implicit
load_weights runs at most once — exactly once on the first call of a
nonempty sequence. -/
theorem C9_weights_loaded_once (ops : List GatedOp) :
    initCLIState.weightsLoaded = false ∧
    (∀ st : CLIState, (loadWeightsStep st).weightsLoaded = true) ∧
    (∀ (o : GatedOp) (st : CLIState), (gatedStep o st).weightsLoaded = true) ∧
    (runGated ops initCLIState).loadCount ≤ 1 ∧
    (∀ (o : GatedOp) (rest : List GatedOp),
      runGated (o :: rest) initCLIState = { weightsLoaded := true, loadCount := 1 }) := by
  refine ⟨rfl, fun st => rfl, fun o st => gatedStep_sets_loaded o st, ?_,
    fun o rest => runGated_cons_init o rest⟩
  cases ops with
  | nil => decide
  | cons o rest =>
      rw [runGated_cons_init o rest]

/-- C10: load_weights with a given weights_path loads from that local
file — the same source whatever weights_file, max_retry and
force_download are, and never an internet download; only with
weights_path absent does it download from the internet with the given
arguments. -/
theorem C10_load_weights_dispatch (p : String) (wf wf2 : Option String)
    (mr mr2 : Nat) (fd fd2 : Bool) :
    loadWeightsSource (some p) wf mr fd = LoadSource.localPath p ∧
    loadWeightsSource (some p) wf mr fd = loadWeightsSource (some p) wf2 mr2 fd2 ∧
    (loadWeightsSource (some p) wf mr fd).isInternet = false ∧
    loadWeightsSource none wf mr fd = LoadSource.internet wf mr fd :=
  ⟨rfl, rfl, rfl, rfl⟩
